import Mathlib

/-!
Shallow embedding of the fixed-capacity sparse set of `sparse_set.hpp`
(template class `sparse_set<Type, Size>`).

The C++ state is: `_size : size_type`, `_sparse : array<size_type, Size>`
(every entry initialised to `Size` by the constructor), and
`_dense : array<storage, Size>` where each `storage` holds a
`sparseIndex` (owner) field and raw, possibly uninitialised bytes for a
`Type` value.  We model the two arrays as total functions on `Nat`; a
dense cell's raw bytes are modelled as `Option V`: `some v` when a live
object `v` is constructed there, `none` when the bytes hold no live
object (uninitialised or destroyed storage).

All three bounds failures in the C++ come from `std::array::at` throwing
`std::out_of_range`; the model names them by the failing site, following
the spec's error vocabulary: `outOfRange` is the `_sparse.at(i)` check
(`i >= Size`), `notFound` is the `_dense.at(_sparse.at(i))` check inside
`at` (the sentinel `Size` stored for an absent index is out of dense
bounds), `capacityExceeded` is the `_dense.at(_size)` check inside
`insert` (the code comment says: if full it should crash here).  A
throwing value constructor is modelled by calling `insertWith` with
`ctor = none`, which fails with `ctorFailed` at exactly the program
point of the placement-new.
-/

namespace sparse_set

/-- Decidable equality for `Except`, used only to evaluate the model on
concrete inputs. -/
instance instDecEqExcept {ε α : Type} [DecidableEq ε] [DecidableEq α] :
    DecidableEq (Except ε α) := fun x y =>
  match x, y with
  | .ok a, .ok b =>
    if h : a = b then .isTrue (by rw [h]) else .isFalse (fun hc => by cases hc; exact h rfl)
  | .error a, .error b =>
    if h : a = b then .isTrue (by rw [h]) else .isFalse (fun hc => by cases hc; exact h rfl)
  | .ok _, .error _ => .isFalse (fun hc => by cases hc)
  | .error _, .ok _ => .isFalse (fun hc => by cases hc)

/-- Failure outcomes, named by the site of the failing check in the C++
source (see the module comment). -/
inductive SErr : Type
  | outOfRange
  | notFound
  | capacityExceeded
  | ctorFailed
deriving DecidableEq

/-- One cell of the dense array: the `sparseIndex` owner field plus the
raw value storage (`none` models bytes holding no live object). -/
structure DCell (V : Type) where
  owner : Nat
  data  : Option V
deriving DecidableEq

/-- The mutable state of a `sparse_set<V, N>` object: `_size`,
`_sparse` and `_dense`. -/
@[ext]
structure SState (V : Type) where
  size   : Nat
  sparse : Nat → Nat
  dense  : Nat → DCell V

/-- The constructor: `_size = 0` and `_sparse.fill(max_size())`.  The
dense array is deliberately left uninitialised in the C++; the model
fixes its junk content as owner 0 and no live value. -/
def init (V : Type) (N : Nat) : SState V :=
  { size := 0, sparse := fun _ => N, dense := fun _ => ⟨0, none⟩ }

/-- `contains`: `_sparse.at(a_Index) != max_size()`; the `at` bounds
check fails when `a_Index >= Size`. -/
def contains (N : Nat) {V : Type} (s : SState V) (i : Nat) : Except SErr Bool :=
  if i < N then .ok (decide (s.sparse i ≠ N)) else .error .outOfRange

/-- Checked lookup `at`: `_dense.at(_sparse.at(a_Index))`.  The outer
bounds check fails when the sparse entry is not a valid dense position
(for an absent index the entry is the sentinel `N`).  A successful
access returns the cell's raw bytes; `some v` is a live value, `none`
is an undefined read of dead storage (cannot happen in invariant
states). -/
def at' (N : Nat) {V : Type} (s : SState V) (i : Nat) : Except SErr (Option V) :=
  if i < N then
    if s.sparse i < N then .ok ((s.dense (s.sparse i)).data)
    else .error .notFound
  else .error .outOfRange

/-- `insert`, with the value construction made explicit: `ctor = some v`
models a constructor that succeeds producing `v`, `ctor = none` a
constructor that throws.  The step order follows the source exactly:
`contains` (can fail `outOfRange`); replace path: destroy then
reconstruct in place; push path: `_sparse[i] = _size`, then the
`_dense.at(_size)` capacity check, then `dense.sparseIndex = i`,
`_size++`, and only then the placement-new.  The returned state is the
object's state at normal return or at the point of the throw. -/
def insertWith (N : Nat) {V : Type} (s : SState V) (i : Nat) (ctor : Option V) :
    Except SErr V × SState V :=
  if i < N then
    if s.sparse i ≠ N then
      -- replace path: destroy_at, then placement-new at the same cell
      let d := s.sparse i
      let dense1 := Function.update s.dense d ⟨(s.dense d).owner, none⟩
      match ctor with
      | some v => (.ok v, { s with dense := Function.update dense1 d ⟨(dense1 d).owner, some v⟩ })
      | none   => (.error .ctorFailed, { s with dense := dense1 })
    else
      -- push path: _sparse[i] = _size happens before the capacity check
      let s1 : SState V := { s with sparse := Function.update s.sparse i s.size }
      if s.size < N then
        let dense1 := Function.update s1.dense s.size ⟨i, (s1.dense s.size).data⟩
        let s2 : SState V := { s1 with dense := dense1, size := s.size + 1 }
        match ctor with
        | some v =>
          (.ok v, { s2 with dense := Function.update s2.dense s.size ⟨(s2.dense s.size).owner, some v⟩ })
        | none   =>
          (.error .ctorFailed,
           { s2 with dense := Function.update s2.dense s.size ⟨(s2.dense s.size).owner, none⟩ })
      else (.error .capacityExceeded, s1)
  else (.error .outOfRange, s)

/-- `insert` with a successfully constructed value `v`. -/
def insert (N : Nat) {V : Type} (s : SState V) (i : Nat) (v : V) :
    Except SErr V × SState V :=
  insertWith N s i (some v)

/-- `erase`: the guard `empty() || !contains(a_Index)` (note that
`contains` throws when `a_Index >= Size`, so the guard itself can fail
on a non-empty set), then `_size--`, destroy the current cell, memmove
the last cell's bytes onto it (a self-move degenerates to copying the
already-destroyed bytes), swap the two owner fields, swap the two
sparse entries, and finally `_sparse[a_Index] = max_size()`.  All reads
feeding a swap happen before its writes, as with `std::swap`. -/
def erase (N : Nat) {V : Type} (s : SState V) (i : Nat) : Except SErr (SState V) :=
  if s.size = 0 then .ok s
  else if i < N then
    if s.sparse i = N then .ok s
    else
      let sz := s.size - 1
      let d := s.sparse i
      let lastOwner := (s.dense sz).owner
      let dense1 := Function.update s.dense d ⟨(s.dense d).owner, none⟩
      let dense2 := Function.update dense1 d ⟨(dense1 d).owner, (dense1 sz).data⟩
      let dense3 :=
        Function.update (Function.update dense2 d ⟨(dense2 sz).owner, (dense2 d).data⟩)
          sz ⟨(dense2 d).owner, (dense2 sz).data⟩
      let sparse1 :=
        Function.update (Function.update s.sparse lastOwner (s.sparse i)) i (s.sparse lastOwner)
      .ok { size := sz, sparse := Function.update sparse1 i N, dense := dense3 }
  else .error .outOfRange

/-- The body of `clear`: `for (index = 0; !empty(); ++index) erase(index);`.
The fuel argument counts the remaining loop iterations the model can
take; `clear` supplies `N + 1`, which always suffices because once
`index` reaches `N` the loop either observes an empty set or `erase`
fails out of the loop. -/
def clearLoop (N : Nat) {V : Type} : Nat → Nat → SState V → Except SErr (SState V)
  | 0, _, s => .ok s
  | fuel + 1, idx, s =>
    if s.size = 0 then .ok s
    else
      match erase N s idx with
      | .ok s' => clearLoop N fuel (idx + 1) s'
      | .error e => .error e

/-- `clear()`. -/
def clear (N : Nat) {V : Type} (s : SState V) : Except SErr (SState V) :=
  clearLoop N (N + 1) 0 s

/-- `max_size()`. -/
def max_size (N : Nat) : Nat := N

/-- `size()`. -/
def size {V : Type} (s : SState V) : Nat := s.size

/-- `empty()`. -/
def empty {V : Type} (s : SState V) : Bool := s.size = 0

/-- `full()`. -/
def full (N : Nat) {V : Type} (s : SState V) : Bool := s.size = N

/-- The representation invariant of the structure (spec I1 to I4,
restricted to what the raw-byte model can express): at most `N`
elements; every non-sentinel sparse entry is a live dense position
whose owner field points back; every live dense position has an
in-range owner whose sparse entry points back, and holds a constructed
value. -/
def Inv (N : Nat) {V : Type} (s : SState V) : Prop :=
  s.size ≤ N ∧
  (∀ i, i < N → s.sparse i ≠ N → s.sparse i < s.size ∧ (s.dense (s.sparse i)).owner = i) ∧
  (∀ d, d < s.size → (s.dense d).owner < N ∧ s.sparse ((s.dense d).owner) = d ∧
    ((s.dense d).data).isSome = true)

instance (N : Nat) {V : Type} (s : SState V) : Decidable (Inv N s) := by
  unfold Inv; infer_instance

/-- The bijection-and-sentinel reading of invariant I1: an index is
non-sentinel exactly when it owns exactly one live dense cell, and then
its sparse entry is that cell's position. -/
def Bij (N : Nat) {V : Type} (s : SState V) : Prop :=
  ∀ i, i < N →
    ((s.sparse i ≠ N) ↔ (∃! d, d < s.size ∧ (s.dense d).owner = i)) ∧
    (∀ d, d < s.size → (s.dense d).owner = i → s.sparse i = d)

/-- The net effect of a present-index erase, with the update chain of
the source resolved pointwise (proved equal to the operation in
`erase_present_eq`).  `moved` is the byte content the memmove leaves in
both touched cells: the last cell's bytes, or the destroyed bytes when
the erased cell is itself the last one. -/
def eraseSpecState (N : Nat) {V : Type} (s : SState V) (i : Nat) : SState V :=
  let sz := s.size - 1
  let d := s.sparse i
  let moved : Option V := if sz = d then none else (s.dense sz).data
  { size := sz,
    sparse := fun j =>
      if j = i then N else if j = (s.dense sz).owner then d else s.sparse j,
    dense := fun e =>
      if e = sz then ⟨(s.dense d).owner, moved⟩
      else if e = d then ⟨(s.dense sz).owner, moved⟩
      else s.dense e }

/-- A concrete capacity-2 state with index 0 present holding 7, used to
evaluate the model at explicit inputs. -/
def wOne : SState Nat := (insert 2 (init Nat 2) 0 7).2

/-- A concrete full capacity-2 state: index 0 holds 7, index 1 holds 8. -/
def wFull : SState Nat := (insert 2 wOne 1 8).2

/-! ### Path characterisations of the operations -/

variable {V : Type}

/-- An out-of-range index makes insert fail at the range check inside
contains, with no state change. -/
theorem insertWith_oob {N : Nat} {s : SState V} {i : Nat} (hi : ¬ i < N) (c : Option V) :
    insertWith N s i c = (.error .outOfRange, s) := by
  unfold insertWith
  rw [if_neg hi]

/-- The replace path: a present index gets its cell destroyed and
reconstructed in place; size, sparse and the owner field are untouched. -/
theorem insertWith_replace {N : Nat} {s : SState V} {i : Nat} (hi : i < N)
    (hp : s.sparse i ≠ N) (v : V) :
    insertWith N s i (some v) =
      (.ok v, { s with
        dense := Function.update s.dense (s.sparse i) ⟨(s.dense (s.sparse i)).owner, some v⟩ }) := by
  unfold insertWith
  rw [if_pos hi, if_pos hp]
  simp only [Function.update_same, Function.update_idem]

/-- The push path with room left: sparse gets the old size, the new
cell gets owner and value, size grows by one. -/
theorem insertWith_fresh {N : Nat} {s : SState V} {i : Nat} (hi : i < N)
    (ha : s.sparse i = N) (hsz : s.size < N) (v : V) :
    insertWith N s i (some v) =
      (.ok v, { size := s.size + 1,
                sparse := Function.update s.sparse i s.size,
                dense := Function.update s.dense s.size ⟨i, some v⟩ }) := by
  unfold insertWith
  rw [if_pos hi, if_neg (not_ne_iff.mpr ha), if_pos hsz]
  simp only [Function.update_same, Function.update_idem]

/-- The replace path with a throwing constructor: the old value has
already been destroyed in place when the failure propagates. -/
theorem insertWith_replace_none {N : Nat} {s : SState V} {i : Nat} (hi : i < N)
    (hp : s.sparse i ≠ N) :
    insertWith N s i none =
      (.error .ctorFailed, { s with
        dense := Function.update s.dense (s.sparse i) ⟨(s.dense (s.sparse i)).owner, none⟩ }) := by
  unfold insertWith
  rw [if_pos hi, if_pos hp]

/-- The capacity failure: the write of `_sparse[i] = _size` has already
happened when `_dense.at(_size)` fails. -/
theorem insertWith_capacity {N : Nat} {s : SState V} {i : Nat} (hi : i < N)
    (ha : s.sparse i = N) (hsz : ¬ s.size < N) (c : Option V) :
    insertWith N s i c =
      (.error .capacityExceeded, { s with sparse := Function.update s.sparse i s.size }) := by
  unfold insertWith
  rw [if_pos hi, if_neg (not_ne_iff.mpr ha), if_neg hsz]

/-- Erase on an empty set, or of an in-range absent index, returns with
the state untouched. -/
theorem erase_noop {N : Nat} {s : SState V} {i : Nat}
    (h : s.size = 0 ∨ (i < N ∧ s.sparse i = N)) :
    erase N s i = .ok s := by
  unfold erase
  rcases h with h | ⟨hi, ha⟩
  · rw [if_pos h]
  · by_cases h0 : s.size = 0
    · rw [if_pos h0]
    · rw [if_neg h0, if_pos hi, if_pos ha]

/-- Erase of an out-of-range index on a non-empty set fails at the
range check inside contains. -/
theorem erase_oob {N : Nat} {s : SState V} {i : Nat} (h0 : s.size ≠ 0) (hi : ¬ i < N) :
    erase N s i = .error .outOfRange := by
  unfold erase
  rw [if_neg h0, if_neg hi]

/-- Erase of a present index computes the state described by
`eraseSpecState`. -/
theorem erase_present_eq {N : Nat} {s : SState V} {i : Nat}
    (h0 : s.size ≠ 0) (hi : i < N) (hp : s.sparse i ≠ N) :
    erase N s i = .ok (eraseSpecState N s i) := by
  unfold erase eraseSpecState
  rw [if_neg h0, if_pos hi, if_neg hp]
  refine congrArg Except.ok ?_
  refine SState.ext rfl ?_ ?_
  · funext j
    simp only [Function.update_apply]
    by_cases hj : j = i
    · simp [hj]
    · by_cases hj2 : j = (s.dense (s.size - 1)).owner
      · subst hj2; simp [hj]
      · simp [hj, hj2]
  · funext e
    by_cases hszd : s.size - 1 = s.sparse i
    · by_cases he : e = s.size - 1
      · simp [Function.update_apply, ← hszd, he]
      · have he2 : ¬ e = s.sparse i := fun h => he (h.trans hszd.symm)
        simp [Function.update_apply, ← hszd, he, he2]
    · by_cases he : e = s.size - 1
      · have he2 : ¬ e = s.sparse i := fun h => hszd (he.symm.trans h)
        simp [Function.update_apply, he, he2, hszd, Ne.symm hszd]
      · by_cases he2 : e = s.sparse i
        · simp [Function.update_apply, he, he2, hszd, Ne.symm hszd]
        · simp [Function.update_apply, he, he2]

/-- Pointwise reading of the size after a present-index erase. -/
theorem eraseSpecState_size {N : Nat} {s : SState V} {i : Nat} :
    (eraseSpecState N s i).size = s.size - 1 := rfl

/-- Pointwise reading of the sparse array after a present-index erase. -/
theorem eraseSpecState_sparse {N : Nat} {s : SState V} {i : Nat} (j : Nat) :
    (eraseSpecState N s i).sparse j =
      if j = i then N
      else if j = (s.dense (s.size - 1)).owner then s.sparse i
      else s.sparse j := rfl

/-- Pointwise reading of the dense array after a present-index erase. -/
theorem eraseSpecState_dense {N : Nat} {s : SState V} {i : Nat} (e : Nat) :
    (eraseSpecState N s i).dense e =
      if e = s.size - 1 then
        ⟨(s.dense (s.sparse i)).owner,
         if s.size - 1 = s.sparse i then none else (s.dense (s.size - 1)).data⟩
      else if e = s.sparse i then
        ⟨(s.dense (s.size - 1)).owner,
         if s.size - 1 = s.sparse i then none else (s.dense (s.size - 1)).data⟩
      else s.dense e := rfl

/-! ### Invariant preservation -/

/-- The constructor establishes the invariant. -/
theorem inv_init (V : Type) (N : Nat) : Inv N (init V N) :=
  ⟨Nat.zero_le _, fun _ _ hb => absurd rfl hb, fun d hd => absurd hd (Nat.not_lt_zero d)⟩

/-- A successful-constructor insert preserves the invariant on every
path, including both failure paths. -/
theorem inv_insertWith {N : Nat} {s : SState V} (h : Inv N s) (i : Nat) (v : V) :
    Inv N (insertWith N s i (some v)).2 := by
  obtain ⟨h1, h2, h3⟩ := h
  by_cases hi : i < N
  · by_cases hp : s.sparse i ≠ N
    · rw [insertWith_replace hi hp]
      have howner : ∀ e,
          ((Function.update s.dense (s.sparse i)
            ⟨(s.dense (s.sparse i)).owner, some v⟩) e).owner = (s.dense e).owner := by
        intro e
        simp only [Function.update_apply]
        split
        · next heq => rw [heq]
        · rfl
      refine ⟨h1, fun j hj hjp => ⟨(h2 j hj hjp).1, ?_⟩, fun d hd => ⟨?_, ?_, ?_⟩⟩
      · rw [howner]; exact (h2 j hj hjp).2
      · rw [howner]; exact (h3 d hd).1
      · rw [howner]; exact (h3 d hd).2.1
      · simp only [Function.update_apply]
        split
        · rfl
        · exact (h3 d hd).2.2
    · rw [not_ne_iff] at hp
      by_cases hsz : s.size < N
      · rw [insertWith_fresh hi hp hsz]
        refine ⟨hsz, fun j hj hjp => ?_, fun d hd => ?_⟩
        · simp only [Function.update_apply] at hjp ⊢
          by_cases hji : j = i
          · refine ⟨?_, ?_⟩
            · simp [hji, Nat.lt_succ_self]
            · simp [hji]
          · rw [if_neg hji] at hjp ⊢
            obtain ⟨hlt, hown⟩ := h2 j hj hjp
            have hne : s.sparse j ≠ s.size := Nat.ne_of_lt hlt
            refine ⟨Nat.lt_succ_of_lt hlt, ?_⟩
            rw [if_neg hne]
            exact hown
        · by_cases hds : d = s.size
          · subst hds
            simp [Function.update_apply, hi]
          · have hd' : d < s.size := Nat.lt_of_le_of_ne (Nat.le_of_lt_succ hd) hds
            obtain ⟨ho1, ho2, ho3⟩ := h3 d hd'
            have hoi : (s.dense d).owner ≠ i := by
              intro hcon
              rw [hcon, hp] at ho2
              exact absurd ho2.symm (Nat.ne_of_lt (Nat.lt_trans hd' hsz))
            simp only [Function.update_apply, if_neg hds, if_neg hoi]
            exact ⟨ho1, ho2, ho3⟩
      · rw [insertWith_capacity hi hp hsz]
        refine ⟨h1, fun j hj hjp => ?_, fun d hd => ?_⟩
        · simp only [Function.update_apply] at hjp ⊢
          by_cases hji : j = i
          · rw [if_pos hji] at hjp
            exact absurd (Nat.le_antisymm h1 (Nat.le_of_not_lt hsz)) hjp
          · rw [if_neg hji] at hjp ⊢
            exact h2 j hj hjp
        · obtain ⟨ho1, ho2, ho3⟩ := h3 d hd
          have hoi : (s.dense d).owner ≠ i := by
            intro hcon
            rw [hcon, hp] at ho2
            have : d < N := Nat.lt_of_lt_of_le hd h1
            exact absurd ho2.symm (Nat.ne_of_lt this)
          simp only [Function.update_apply, if_neg hoi]
          exact ⟨ho1, ho2, ho3⟩
  · rw [insertWith_oob hi]
    exact ⟨h1, h2, h3⟩

/-- Insert preserves the invariant. -/
theorem inv_insert {N : Nat} {s : SState V} (h : Inv N s) (i : Nat) (v : V) :
    Inv N (insert N s i v).2 :=
  inv_insertWith h i v

/-- A present-index erase preserves the invariant. -/
theorem inv_erase_present {N : Nat} {s : SState V} {i : Nat}
    (h : Inv N s) (hi : i < N) (hp : s.sparse i ≠ N) :
    Inv N (eraseSpecState N s i) := by
  obtain ⟨h1, h2, h3⟩ := h
  obtain ⟨hd, hdo⟩ := h2 i hi hp
  have h0 : s.size ≠ 0 := Nat.pos_iff_ne_zero.mp (Nat.lt_of_le_of_lt (Nat.zero_le _) hd)
  have hsz : s.size - 1 < s.size := Nat.sub_lt (Nat.pos_of_ne_zero h0) Nat.one_pos
  obtain ⟨hlo, hlos, hlod⟩ := h3 (s.size - 1) hsz
  have hdsz : s.sparse i ≤ s.size - 1 := Nat.le_sub_one_of_lt hd
  refine ⟨?_, fun j hj hjp => ?_, fun e he => ?_⟩
  · exact Nat.le_trans (Nat.sub_le _ _) h1
  · rw [eraseSpecState_sparse] at hjp ⊢
    rw [eraseSpecState_size]
    by_cases hji : j = i
    · rw [if_pos hji] at hjp
      exact absurd rfl hjp
    · rw [if_neg hji] at hjp ⊢
      by_cases hjlo : j = (s.dense (s.size - 1)).owner
      · rw [if_pos hjlo] at hjp ⊢
        have hdne : s.sparse i ≠ s.size - 1 := by
          intro hcon
          rw [← hcon, hdo] at hjlo
          exact hji hjlo
        have hdlt : s.sparse i < s.size - 1 := Nat.lt_of_le_of_ne hdsz hdne
        refine ⟨hdlt, ?_⟩
        rw [eraseSpecState_dense, if_neg (Nat.ne_of_gt hdlt).symm, if_pos rfl]
        exact hjlo.symm
      · rw [if_neg hjlo] at hjp ⊢
        obtain ⟨hlt, hown⟩ := h2 j hj hjp
        have hne1 : s.sparse j ≠ s.size - 1 := by
          intro hcon
          rw [hcon] at hown
          exact hjlo hown.symm
        have hne2 : s.sparse j ≠ s.sparse i := by
          intro hcon
          rw [hcon, hdo] at hown
          exact hji hown.symm
        refine ⟨Nat.lt_of_le_of_ne (Nat.le_sub_one_of_lt hlt) hne1, ?_⟩
        rw [eraseSpecState_dense, if_neg hne1, if_neg hne2]
        exact hown
  · rw [eraseSpecState_size] at he
    rw [eraseSpecState_dense]
    have hesz : e ≠ s.size - 1 := Nat.ne_of_lt he
    rw [if_neg hesz]
    by_cases hed : e = s.sparse i
    · rw [if_pos hed]
      have hdne : s.size - 1 ≠ s.sparse i := by
        intro hcon
        rw [← hed] at hcon
        exact hesz hcon.symm
      have hloi : (s.dense (s.size - 1)).owner ≠ i := by
        intro hcon
        rw [hcon] at hlos
        rw [hlos] at hed
        exact hesz (hed.trans rfl)
      rw [eraseSpecState_sparse, if_neg hloi, if_pos rfl]
      rw [if_neg hdne]
      exact ⟨hlo, hed.symm, hlod⟩
    · rw [if_neg hed]
      have he' : e < s.size := Nat.lt_trans he hsz
      obtain ⟨ho1, ho2, ho3⟩ := h3 e he'
      have hoi : (s.dense e).owner ≠ i := by
        intro hcon
        rw [hcon] at ho2
        exact hed ho2.symm
      have holo : (s.dense e).owner ≠ (s.dense (s.size - 1)).owner := by
        intro hcon
        rw [hcon, hlos] at ho2
        exact hesz ho2.symm
      rw [eraseSpecState_sparse, if_neg hoi, if_neg holo]
      exact ⟨ho1, ho2, ho3⟩

/-- Erase preserves the invariant whenever it returns. -/
theorem inv_erase {N : Nat} {s s' : SState V} {i : Nat}
    (h : Inv N s) (he : erase N s i = .ok s') : Inv N s' := by
  by_cases h0 : s.size = 0
  · rw [erase_noop (Or.inl h0)] at he
    cases he
    exact h
  · by_cases hi : i < N
    · by_cases hp : s.sparse i = N
      · rw [erase_noop (Or.inr ⟨hi, hp⟩)] at he
        cases he
        exact h
      · rw [erase_present_eq h0 hi hp] at he
        cases he
        exact inv_erase_present h hi hp
    · rw [erase_oob h0 hi] at he
      cases he

/-- Pigeonhole: in an invariant state with `size = N`, every in-range
index is present — the owner map is an injection of the `N` dense
positions into the `N` possible indices, hence a surjection. -/
theorem full_all_present {N : Nat} {s : SState V} (h : Inv N s) (hfull : s.size = N)
    {i : Nat} (hi : i < N) : s.sparse i ≠ N := by
  obtain ⟨h1, h2, h3⟩ := h
  have hsurj := Finset.surj_on_of_inj_on_of_card_le
    (s := Finset.range N) (t := Finset.range N)
    (fun d _ => (s.dense d).owner)
    (fun d hd => by
      have hd' : d < s.size := by rw [hfull]; exact Finset.mem_range.mp hd
      exact Finset.mem_range.mpr (h3 d hd').1)
    (fun d1 d2 hd1 hd2 heq => by
      have h1' : d1 < s.size := by rw [hfull]; exact Finset.mem_range.mp hd1
      have h2' : d2 < s.size := by rw [hfull]; exact Finset.mem_range.mp hd2
      have heq' : (s.dense d1).owner = (s.dense d2).owner := heq
      have e1 := (h3 d1 h1').2.1
      have e2 := (h3 d2 h2').2.1
      rw [heq'] at e1
      exact e1.symm.trans e2)
    (le_refl _)
  obtain ⟨d, hd, hdo⟩ := hsurj i (Finset.mem_range.mpr hi)
  have hdo' : i = (s.dense d).owner := hdo
  have hd' : d < s.size := by rw [hfull]; exact Finset.mem_range.mp hd
  have := (h3 d hd').2.1
  rw [← hdo'] at this
  rw [this]
  exact Nat.ne_of_lt (Nat.lt_of_lt_of_le hd' h1)

/-- The invariant yields the bijection-and-sentinel reading I1. -/
theorem bij_of_inv {N : Nat} {s : SState V} (h : Inv N s) : Bij N s := by
  obtain ⟨h1, h2, h3⟩ := h
  intro i hi
  have huniq : ∀ d, d < s.size → (s.dense d).owner = i → s.sparse i = d := by
    intro d hd hdo
    have := (h3 d hd).2.1
    rw [hdo] at this
    exact this
  refine ⟨⟨?_, ?_⟩, huniq⟩
  · intro hp
    obtain ⟨hlt, hown⟩ := h2 i hi hp
    refine ⟨s.sparse i, ⟨hlt, hown⟩, ?_⟩
    rintro d ⟨hd, hdo⟩
    rw [huniq d hd hdo]
  · rintro ⟨d, ⟨hd, hdo⟩, _⟩
    rw [huniq d hd hdo]
    exact Nat.ne_of_lt (Nat.lt_of_lt_of_le hd h1)

/-- The clear loop empties any invariant state whose indices below the
loop counter are already absent, given enough fuel. -/
theorem clearLoop_spec {N : Nat} :
    ∀ (fuel idx : Nat) (s : SState V), Inv N s →
      (∀ j, j < idx → j < N → s.sparse j = N) →
      N + 1 ≤ idx + fuel →
      ∃ s', clearLoop N fuel idx s = .ok s' ∧ Inv N s' ∧ s'.size = 0 := by
  intro fuel
  induction fuel with
  | zero =>
    intro idx s hInv hcl hle
    refine ⟨s, rfl, hInv, ?_⟩
    by_contra hne
    obtain ⟨ho1, ho2, _⟩ := hInv.2.2 0 (Nat.pos_of_ne_zero hne)
    have := hcl (s.dense 0).owner (by omega) ho1
    rw [this] at ho2
    omega
  | succ fuel ih =>
    intro idx s hInv hcl hle
    rw [clearLoop]
    by_cases h0 : s.size = 0
    · rw [if_pos h0]
      exact ⟨s, rfl, hInv, h0⟩
    · rw [if_neg h0]
      have hidx : idx < N := by
        by_contra hge
        obtain ⟨ho1, ho2, _⟩ := hInv.2.2 0 (Nat.pos_of_ne_zero h0)
        have := hcl (s.dense 0).owner (by omega) ho1
        rw [this] at ho2
        omega
      by_cases hp : s.sparse idx = N
      · rw [erase_noop (Or.inr ⟨hidx, hp⟩)]
        obtain ⟨s', hs', hi', hz⟩ := ih (idx + 1) s hInv
          (fun j hj hjN => by
            rcases Nat.lt_succ_iff_lt_or_eq.mp hj with hj' | hj'
            · exact hcl j hj' hjN
            · rw [hj']; exact hp)
          (by omega)
        exact ⟨s', hs', hi', hz⟩
      · rw [erase_present_eq h0 hidx hp]
        obtain ⟨s', hs', hi', hz⟩ := ih (idx + 1) _ (inv_erase_present hInv hidx hp)
          (fun j hj hjN => by
            rw [eraseSpecState_sparse]
            by_cases hji : j = idx
            · rw [if_pos hji]
            · rw [if_neg hji]
              have hjidx : j < idx := Nat.lt_of_le_of_ne (Nat.le_of_lt_succ hj) hji
              have hjold : s.sparse j = N := hcl j hjidx hjN
              by_cases hjlo : j = (s.dense (s.size - 1)).owner
              · exfalso
                obtain ⟨_, hlos, _⟩ :=
                  hInv.2.2 (s.size - 1) (Nat.sub_lt (Nat.pos_of_ne_zero h0) Nat.one_pos)
                rw [← hjlo, hjold] at hlos
                have := hInv.1
                omega
              · rw [if_neg hjlo]
                exact hjold)
          (by omega)
        exact ⟨s', hs', hi', hz⟩

/-- Under the invariant, clear succeeds and empties the set, preserving
the invariant. -/
theorem clear_spec {N : Nat} {s : SState V} (h : Inv N s) :
    ∃ s', clear N s = .ok s' ∧ Inv N s' ∧ s'.size = 0 :=
  clearLoop_spec (N + 1) 0 s h (fun j hj _ => absurd hj (Nat.not_lt_zero j)) (by omega)

/-- All observable effects of a replace-path insert, shared by the
replace and round-trip claims. -/
theorem insert_replace_props {N : Nat} {s : SState V} {i : Nat}
    (h : Inv N s) (hi : i < N) (hp : s.sparse i ≠ N) (v : V) :
    (insert N s i v).1 = .ok v ∧
    (insert N s i v).2.size = s.size ∧
    (insert N s i v).2.sparse = s.sparse ∧
    (∀ e, ((insert N s i v).2.dense e).owner = (s.dense e).owner) ∧
    at' N (insert N s i v).2 i = .ok (some v) := by
  obtain ⟨h1, h2, _⟩ := h
  obtain ⟨hlt, _⟩ := h2 i hi hp
  have hltN : s.sparse i < N := Nat.lt_of_lt_of_le hlt h1
  unfold insert
  rw [insertWith_replace hi hp]
  refine ⟨rfl, rfl, rfl, fun e => ?_, ?_⟩
  · simp only [Function.update_apply]
    split
    · next heq => rw [heq]
    · rfl
  · unfold at'
    rw [if_pos hi, if_pos hltN]
    simp

/-! ### Claims -/

/-- C1 (amended): erase is a clean no-op, with no observable change, on
an empty set (for every index), and for an in-range absent index; but
on a non-empty set an out-of-range index makes erase propagate the
range-check failure from contains instead of returning cleanly. -/
theorem C1_erase_noop_amended (N : Nat) {V : Type} (s : SState V) (i : Nat) :
    (s.size = 0 → erase N s i = .ok s) ∧
    (i < N → s.sparse i = N → erase N s i = .ok s) ∧
    (s.size ≠ 0 → ¬ i < N → erase N s i = .error .outOfRange) :=
  ⟨fun h0 => erase_noop (Or.inl h0),
   fun hi ha => erase_noop (Or.inr ⟨hi, ha⟩),
   fun h0 hi => erase_oob h0 hi⟩

/-- Witness for C1: a concrete empty-set out-of-range erase and a
concrete absent-index erase return the state untouched; a concrete
non-empty out-of-range erase fails. -/
theorem C1_erase_noop_amended_witness :
    erase 2 (init Nat 2) 999 = .ok (init Nat 2) ∧
    erase 2 wOne 1 = .ok wOne ∧
    erase 2 wOne 5 = .error .outOfRange :=
  ⟨(C1_erase_noop_amended 2 (init Nat 2) 999).1 (by decide),
   (C1_erase_noop_amended 2 wOne 1).2.1 (by decide) (by decide),
   (C1_erase_noop_amended 2 wOne 5).2.2 (by decide) (by decide)⟩

/-- Counterexample to C1 as stated: on a non-empty capacity-2 set
(index 0 present), erasing the out-of-range index 5 raises the
out-of-range failure instead of returning cleanly. -/
theorem C1_counterexample :
    wOne.size = 1 ∧ ¬ 5 < 2 ∧ erase 2 wOne 5 = .error .outOfRange :=
  ⟨by decide, by decide, rfl⟩

/-- C2 (code bug): the push path of insert commits its bookkeeping
before running the value constructor.  At the concrete failing input
(capacity 2, index 0 present, insert at absent index 1 with a throwing
constructor) the call fails with the constructor failure, yet size has
been incremented, sparse[1] has been redirected from the sentinel to
dense position 1, and the invariant no longer holds. -/
theorem C2_ctor_failure_commits_first :
    Inv 2 wOne ∧
    wOne.sparse 1 = 2 ∧
    (insertWith 2 wOne 1 none).1 = .error .ctorFailed ∧
    (insertWith 2 wOne 1 none).2.size = wOne.size + 1 ∧
    (insertWith 2 wOne 1 none).2.sparse 1 = 1 ∧
    ¬ Inv 2 (insertWith 2 wOne 1 none).2 := by
  decide

/-- Counterexample to C3 as stated: capacity 2, full set holding
indices 0 and 1; inserting the distinct never-used index 5 fails with
the out-of-range error from the contains range check, not with the
capacity error. -/
theorem C3_counterexample :
    wFull.size = 2 ∧
    (insert 2 wFull 5 9).1 = .error .outOfRange ∧
    (insert 2 wFull 5 9).1 ≠ .error .capacityExceeded := by
  decide

/-- C3 (amended): on a full invariant state every in-range index is
present, so insert of a distinct never-used index is necessarily
out of range and fails with the range error (the range check in
contains fires before any capacity check can be reached); insert on an
already-present index still succeeds via the replace path with size
unchanged, and full() is true. -/
theorem C3_full_insert_amended {N : Nat} {V : Type} {s : SState V}
    (h : Inv N s) (hfull : s.size = N) :
    (∀ i (v : V), ¬ i < N → (insert N s i v).1 = .error .outOfRange) ∧
    (∀ i (v : V), i < N →
      (insert N s i v).1 = .ok v ∧ (insert N s i v).2.size = N) ∧
    full N s = true := by
  refine ⟨fun i v hi => ?_, fun i v hi => ?_, by simp [full, hfull]⟩
  · unfold insert
    rw [insertWith_oob hi]
  · have hp := full_all_present h hfull hi
    unfold insert
    rw [insertWith_replace hi hp]
    exact ⟨rfl, hfull⟩

/-- Witness for C3 (amended), on the concrete full capacity-2 state:
the never-used index 5 fails with the range error, and the replace of
present index 0 succeeds with size still 2. -/
theorem C3_full_insert_amended_witness :
    (insert 2 wFull 5 9).1 = .error .outOfRange ∧
    (insert 2 wFull 0 9).1 = .ok 9 ∧ (insert 2 wFull 0 9).2.size = 2 :=
  ⟨(C3_full_insert_amended (by decide) (by decide)).1 5 9 (by decide),
   ((C3_full_insert_amended (by decide) (by decide)).2.1 0 9 (by decide)).1,
   ((C3_full_insert_amended (by decide) (by decide)).2.1 0 9 (by decide)).2⟩

/-- C4: the constructor establishes the invariant; the invariant yields
the bijection-and-sentinel property I1; and insert, erase and clear all
preserve the invariant. -/
theorem C4_invariants (V : Type) (N : Nat) :
    Inv N (init V N) ∧
    (∀ s : SState V, Inv N s → Bij N s) ∧
    (∀ (s : SState V) i v, Inv N s → Inv N (insert N s i v).2) ∧
    (∀ (s s' : SState V) i, Inv N s → erase N s i = .ok s' → Inv N s') ∧
    (∀ s : SState V, Inv N s → ∃ s', clear N s = .ok s' ∧ Inv N s' ∧ s'.size = 0) :=
  ⟨inv_init V N,
   fun _ h => bij_of_inv h,
   fun _ i v h => inv_insert h i v,
   fun _ _ _ h he => inv_erase h he,
   fun _ h => clear_spec h⟩

/-- Witness for C4 at concrete states: the capacity-2 initial state is
invariant, a one-element state has the bijection property, and a
concrete insert preserves the invariant. -/
theorem C4_invariants_witness :
    Inv 2 (init Nat 2) ∧ Bij 2 wOne ∧ Inv 2 (insert 2 wOne 1 8).2 :=
  ⟨(C4_invariants Nat 2).1,
   (C4_invariants Nat 2).2.1 wOne (by decide),
   (C4_invariants Nat 2).2.2.1 wOne 1 8 (by decide)⟩

/-- C5: erasing a present index affects only that index: erase returns
cleanly, the size drops by exactly one, the erased index reads absent,
and every other present index is still present with the same checked
lookup result, despite the swap-and-pop relocation. -/
theorem C5_erase_frame {N : Nat} {V : Type} {s : SState V} {i : Nat}
    (h : Inv N s) (hi : i < N) (hp : s.sparse i ≠ N) :
    ∃ s', erase N s i = .ok s' ∧
      s'.size + 1 = s.size ∧
      contains N s' i = .ok false ∧
      ∀ j, j < N → j ≠ i → s.sparse j ≠ N →
        contains N s' j = .ok true ∧ at' N s' j = at' N s j := by
  obtain ⟨h1, h2, h3⟩ := h
  obtain ⟨hd, hdo⟩ := h2 i hi hp
  have h0 : s.size ≠ 0 := by omega
  obtain ⟨hlo, hlos, _⟩ := h3 (s.size - 1) (by omega)
  refine ⟨eraseSpecState N s i, erase_present_eq h0 hi hp,
    by rw [eraseSpecState_size]; omega, ?_, ?_⟩
  · unfold contains
    rw [if_pos hi, eraseSpecState_sparse, if_pos rfl]
    simp
  · intro j hj hji hjp
    obtain ⟨hlt, hown⟩ := h2 j hj hjp
    have hjN : s.sparse j < N := Nat.lt_of_lt_of_le hlt h1
    by_cases hjlo : j = (s.dense (s.size - 1)).owner
    · have hsj : s.sparse j = s.size - 1 := by rw [hjlo]; exact hlos
      have hdne : s.sparse i ≠ s.size - 1 := by
        intro hcon
        rw [← hcon, hdo] at hjlo
        exact hji hjlo
      have hs' : (eraseSpecState N s i).sparse j = s.sparse i := by
        rw [eraseSpecState_sparse, if_neg hji, if_pos hjlo]
      have hdN : s.sparse i < N := Nat.lt_of_lt_of_le hd h1
      constructor
      · unfold contains
        rw [if_pos hj, hs']
        simp [hp]
      · have hL : at' N (eraseSpecState N s i) j =
            .ok (((eraseSpecState N s i).dense (s.sparse i)).data) := by
          unfold at'
          rw [if_pos hj, hs', if_pos hdN]
        have hcell : (eraseSpecState N s i).dense (s.sparse i) =
            ⟨(s.dense (s.size - 1)).owner, (s.dense (s.size - 1)).data⟩ := by
          rw [eraseSpecState_dense, if_neg hdne, if_pos rfl, if_neg (Ne.symm hdne)]
        have hR : at' N s j = .ok ((s.dense (s.size - 1)).data) := by
          unfold at'
          rw [if_pos hj, if_pos hjN, hsj]
        rw [hL, hcell, hR]
    · have hs' : (eraseSpecState N s i).sparse j = s.sparse j := by
        rw [eraseSpecState_sparse, if_neg hji, if_neg hjlo]
      have hne1 : s.sparse j ≠ s.size - 1 := by
        intro hcon
        rw [hcon] at hown
        exact hjlo hown.symm
      have hne2 : s.sparse j ≠ s.sparse i := by
        intro hcon
        rw [hcon, hdo] at hown
        exact hji hown.symm
      have hcell : (eraseSpecState N s i).dense (s.sparse j) = s.dense (s.sparse j) := by
        rw [eraseSpecState_dense, if_neg hne1, if_neg hne2]
      constructor
      · unfold contains
        rw [if_pos hj, hs']
        simp [hjp]
      · unfold at'
        rw [hs', hcell]

/-- Witness for C5: erasing present index 0 from the concrete full
capacity-2 state leaves index 1 present with its value 8 intact. -/
theorem C5_erase_frame_witness :
    ∃ s', erase 2 wFull 0 = .ok s' ∧
      s'.size + 1 = wFull.size ∧
      contains 2 s' 0 = .ok false ∧
      ∀ j, j < 2 → j ≠ 0 → wFull.sparse j ≠ 2 →
        contains 2 s' j = .ok true ∧ at' 2 s' j = at' 2 wFull j :=
  C5_erase_frame (by decide) (by decide) (by decide)

/-- C6: erasing the index whose dense cell is the last occupied slot is
a degenerate self-relocation: erase returns cleanly with the size
decremented, the index's sparse entry set to the sentinel, the
invariant intact, and every other sparse entry and every surviving
dense cell bit-for-bit untouched. -/
theorem C6_erase_last_self_move {N : Nat} {V : Type} {s : SState V} {i : Nat}
    (h : Inv N s) (hi : i < N) (hp : s.sparse i ≠ N) (hlast : s.sparse i = s.size - 1) :
    ∃ s', erase N s i = .ok s' ∧
      s'.size + 1 = s.size ∧ s'.sparse i = N ∧ Inv N s' ∧
      (∀ j, j ≠ i → s'.sparse j = s.sparse j) ∧
      (∀ e, e < s'.size → s'.dense e = s.dense e) := by
  obtain ⟨hd, hdo⟩ := h.2.1 i hi hp
  have h0 : s.size ≠ 0 := by omega
  refine ⟨eraseSpecState N s i, erase_present_eq h0 hi hp,
    by rw [eraseSpecState_size]; omega,
    by rw [eraseSpecState_sparse, if_pos rfl],
    inv_erase_present h hi hp, ?_, ?_⟩
  · intro j hji
    have hloi : (s.dense (s.size - 1)).owner = i := by
      rw [← hlast]
      exact hdo
    rw [eraseSpecState_sparse, if_neg hji, hloi, if_neg hji]
  · intro e he
    rw [eraseSpecState_size] at he
    rw [eraseSpecState_dense, if_neg (by omega : ¬ e = s.size - 1), hlast,
      if_neg (by omega : ¬ e = s.size - 1)]

/-- Witness for C6: erasing index 1 (whose cell is the last slot) from
the concrete full capacity-2 state. -/
theorem C6_erase_last_self_move_witness :
    ∃ s', erase 2 wFull 1 = .ok s' ∧
      s'.size + 1 = wFull.size ∧ s'.sparse 1 = 2 ∧ Inv 2 s' ∧
      (∀ j, j ≠ 1 → s'.sparse j = wFull.sparse j) ∧
      (∀ e, e < s'.size → s'.dense e = wFull.dense e) :=
  C6_erase_last_self_move (by decide) (by decide) (by decide) (by decide)

/-- C7: at is a checked lookup: an out-of-range index fails with the
range error; an in-range absent index (sentinel sparse entry) fails
with the not-found error at the dense bounds check; a present index
returns the live value stored at dense[sparse[i]]. -/
theorem C7_at_checked (N : Nat) {V : Type} (s : SState V) (i : Nat) :
    (¬ i < N → at' N s i = .error .outOfRange) ∧
    (i < N → s.sparse i = N → at' N s i = .error .notFound) ∧
    (Inv N s → i < N → s.sparse i ≠ N →
      ∃ v, (s.dense (s.sparse i)).data = some v ∧ at' N s i = .ok (some v)) := by
  refine ⟨fun hi => ?_, fun hi ha => ?_, fun h hi hp => ?_⟩
  · unfold at'
    rw [if_neg hi]
  · unfold at'
    rw [if_pos hi, if_neg (by omega)]
  · obtain ⟨hlt, _⟩ := h.2.1 i hi hp
    have hltN : s.sparse i < N := Nat.lt_of_lt_of_le hlt h.1
    obtain ⟨v, hv⟩ := Option.isSome_iff_exists.mp ((h.2.2 (s.sparse i) hlt).2.2)
    refine ⟨v, hv, ?_⟩
    unfold at'
    rw [if_pos hi, if_pos hltN, hv]

/-- Witness for C7 on the concrete one-element capacity-2 state: index
5 is out of range, index 1 is absent, index 0 reads its value 7. -/
theorem C7_at_checked_witness :
    at' 2 wOne 5 = .error .outOfRange ∧
    at' 2 wOne 1 = .error .notFound ∧
    (∃ v, (wOne.dense (wOne.sparse 0)).data = some v ∧ at' 2 wOne 0 = .ok (some v)) :=
  ⟨(C7_at_checked 2 wOne 5).1 (by decide),
   (C7_at_checked 2 wOne 1).2.1 (by decide) (by decide),
   (C7_at_checked 2 wOne 0).2.2 (by decide) (by decide) (by decide)⟩

/-- C8: insert on a present index replaces in place: it succeeds (never
a capacity error, even on a full set), the size, the whole sparse array
and every owner field are unchanged, and the checked lookup then
returns the newly constructed value. -/
theorem C8_insert_replace {N : Nat} {V : Type} {s : SState V} {i : Nat}
    (h : Inv N s) (hi : i < N) (hp : s.sparse i ≠ N) (v : V) :
    (insert N s i v).1 = .ok v ∧
    (insert N s i v).2.size = s.size ∧
    (insert N s i v).2.sparse = s.sparse ∧
    (∀ e, ((insert N s i v).2.dense e).owner = (s.dense e).owner) ∧
    at' N (insert N s i v).2 i = .ok (some v) :=
  insert_replace_props h hi hp v

/-- Witness for C8: replacing the value at present index 0 of the full
concrete capacity-2 state succeeds with the new value readable. -/
theorem C8_insert_replace_witness :
    (insert 2 wFull 0 9).1 = .ok 9 ∧
    (insert 2 wFull 0 9).2.size = wFull.size ∧
    (insert 2 wFull 0 9).2.sparse = wFull.sparse ∧
    (∀ e, ((insert 2 wFull 0 9).2.dense e).owner = (wFull.dense e).owner) ∧
    at' 2 (insert 2 wFull 0 9).2 0 = .ok (some 9) :=
  C8_insert_replace (by decide) (by decide) (by decide) 9

/-- C9: whenever an in-range insert succeeds, the checked lookup on
that index returns exactly the inserted value. -/
theorem C9_roundtrip {N : Nat} {V : Type} {s : SState V} {i : Nat} {v : V}
    (h : Inv N s) (hi : i < N) (hok : (insert N s i v).1 = .ok v) :
    at' N (insert N s i v).2 i = .ok (some v) := by
  by_cases hp : s.sparse i ≠ N
  · exact (insert_replace_props h hi hp v).2.2.2.2
  · rw [not_ne_iff] at hp
    by_cases hsz : s.size < N
    · unfold insert
      rw [insertWith_fresh hi hp hsz]
      unfold at'
      simp [hi, hsz]
      rw [Function.update_same, Function.update_same]
    · exfalso
      unfold insert at hok
      rw [insertWith_capacity hi hp hsz] at hok
      exact Except.noConfusion hok

/-- Witness for C9: the concrete fresh insert of value 8 at index 1 of
the one-element state reads back 8. -/
theorem C9_roundtrip_witness :
    at' 2 (insert 2 wOne 1 8).2 1 = .ok (some 8) :=
  C9_roundtrip (by decide) (by decide) (by decide)

/-- C10: in a full invariant state every in-range index is present, so
every in-range insert takes the replace path and succeeds; no insert
whatsoever can return the capacity error (the bounds-checked
dense access at the old size is unreachable), and an absent index can
only fail the range check. -/
theorem C10_full_capacity_branch_dead {N : Nat} {V : Type} {s : SState V}
    (h : Inv N s) (hfull : s.size = N) :
    (∀ i, i < N → s.sparse i ≠ N) ∧
    (∀ i (v : V), i < N → (insert N s i v).1 = .ok v) ∧
    (∀ i (c : Option V), (insertWith N s i c).1 ≠ .error .capacityExceeded) ∧
    (∀ i (v : V), s.sparse i = N → (insert N s i v).1 = .error .outOfRange) := by
  have hall : ∀ i, i < N → s.sparse i ≠ N := fun i hi => full_all_present h hfull hi
  refine ⟨hall, fun i v hi => ?_, fun i c => ?_, fun i v ha => ?_⟩
  · unfold insert
    rw [insertWith_replace hi (hall i hi)]
  · by_cases hi : i < N
    · have hp : s.sparse i ≠ N := hall i hi
      cases c with
      | some v =>
        rw [insertWith_replace hi hp]
        simp
      | none =>
        rw [insertWith_replace_none hi hp]
        simp
    · rw [insertWith_oob hi]
      simp
  · have hi : ¬ i < N := fun hi => (hall i hi) ha
    unfold insert
    rw [insertWith_oob hi]

/-- Witness for C10 on the concrete full capacity-2 state. -/
theorem C10_full_capacity_branch_dead_witness :
    wFull.sparse 0 ≠ 2 ∧
    (insert 2 wFull 0 9).1 = .ok 9 ∧
    (insertWith 2 wFull 5 (some 9)).1 ≠ .error .capacityExceeded ∧
    (insert 2 wFull 5 9).1 = .error .outOfRange :=
  ⟨(C10_full_capacity_branch_dead (by decide) (by decide)).1 0 (by decide),
   (C10_full_capacity_branch_dead (by decide) (by decide)).2.1 0 9 (by decide),
   (C10_full_capacity_branch_dead (by decide) (by decide)).2.2.1 5 (some 9),
   (C10_full_capacity_branch_dead (by decide) (by decide)).2.2.2 5 9 (by decide)⟩

end sparse_set
